import Mathlib

/-!
Verification of the Dju utility library against its specification.

The developments below shallowly embed the Python sources:

* `src/djutil/str.py` and `django_util/__init__.py` — the string
  normalizers `_clean`, `snake_case`, `upper_case`;
* `src/djutil/models.py` — `get_by_name_or_uuid` on models with a UUID
  primary key and an optional unique name (together with a model of
  CPython's `uuid.UUID(hex=..., version=4)` constructor);
* `django_utils/models.py` — the key/value record `save` that
  upper-cases its key and asserts it non-empty;
* `src/djutil/autocompletes.py` — `autocomplete_factory` and the
  `get_queryset` method of the view class it builds.

Strings are embedded as Lean `String` (a structure holding a
`List Char`); machine-level concerns do not arise.  CPython's case
mapping and word-class behaviour is embedded at two tiers.  The base
tier models the regex word class `\w` over the ASCII range
`[A-Za-z0-9_]` and `str.lower`/`str.upper` by
`Char.toLower`/`Char.toUpper` mapped over the characters; it is exact
on all-ASCII inputs.  CPython's full Unicode case mappings are
one-to-many and leave the ASCII range on some code points, so an
extended tier (`pyWordChar`, `pyLowerChar`, `pyUpperChar`,
`snake_casePy`, `upper_casePy`, `EnvVarRec.savePy`) additionally
covers the non-ASCII code points exercised by the statements below,
on which it agrees with CPython character for character; the two
tiers are proved to coincide on all-ASCII inputs
(`snake_casePy_ascii`, `upper_casePy_ascii`).  The normalizer
idempotence and case-relation properties and the saved-key
fixed-point invariant fail on the extended tier — hence on the
program — and hold restricted to ASCII inputs.
-/

/-- Model of the regex word-character class over ASCII: `A–Z`, `a–z`,
`0–9` or `_` (code point 95). -/
def isWordChar (c : Char) : Bool :=
  (decide (65 ≤ c.toNat) && decide (c.toNat ≤ 90)) ||
    (decide (97 ≤ c.toNat) && decide (c.toNat ≤ 122)) ||
    (decide (48 ≤ c.toNat) && decide (c.toNat ≤ 57)) ||
    decide (c.toNat = 95)

/-- Model of `re.sub(r'[^\w]+', '_', s)`: each maximal run of non-word
characters becomes a single `'_'`.  The boolean flag records whether
the scan is inside a non-word run whose `'_'` has been emitted. -/
def subNonWordAux : Bool → List Char → List Char
  | _, [] => []
  | inRun, c :: cs =>
    if isWordChar c then c :: subNonWordAux false cs
    else if inRun then subNonWordAux true cs
    else '_' :: subNonWordAux true cs

/-- The substitution of `re.sub(r'[^\w]+', '_', s)`, started outside a
non-word run. -/
def subNonWord (l : List Char) : List Char :=
  subNonWordAux false l

/-- Model of Python's `str.strip('_')`: remove all leading and trailing
underscores. -/
def stripUnderscores (l : List Char) : List Char :=
  ((l.dropWhile (fun c => c == '_')).reverse.dropWhile (fun c => c == '_')).reverse

/-- Model of `re.sub('_{2,}', '_', s)`: each maximal run of two or more
underscores becomes a single `'_'`.  The boolean flag records whether
the previously emitted character was an underscore coming from the
input position just before. -/
def collapseAux : Bool → List Char → List Char
  | _, [] => []
  | prevU, c :: cs =>
    if c == '_' then
      if prevU then collapseAux true cs
      else '_' :: collapseAux true cs
    else c :: collapseAux false cs

/-- Embedding of `_clean` from `src/djutil/str.py` (identical in
`django_util/__init__.py`):
`re.sub('_{2,}', '_', re.sub(r'[^\w]+', '_', s).strip('_'))`. -/
def _clean (l : List Char) : List Char :=
  collapseAux false (stripUnderscores (subNonWord l))

/-- Embedding of `snake_case` from `src/djutil/str.py`:
`_clean(s).lower()`. -/
def snake_case (s : String) : String :=
  ⟨(_clean s.data).map Char.toLower⟩

/-- Embedding of `upper_case` from `src/djutil/str.py`:
`_clean(s).upper()`. -/
def upper_case (s : String) : String :=
  ⟨(_clean s.data).map Char.toUpper⟩

/-- Spec-side wording for C2: replace every maximal run of non-word
characters with a single underscore.  On meeting a non-word character
the whole maximal run is skipped at once. -/
def replaceNonWordRuns : List Char → List Char
  | [] => []
  | c :: cs =>
    if isWordChar c then c :: replaceNonWordRuns cs
    else '_' :: replaceNonWordRuns (cs.dropWhile (fun x => ! isWordChar x))
termination_by l => l.length
decreasing_by
  · simp only [List.length_cons]; omega
  · have := (List.dropWhile_sublist (l := cs) (p := fun x => ! isWordChar x)).length_le
    simp only [List.length_cons]; omega

/-- Spec-side wording for C2: collapse every run of two or more
underscores into one. -/
def collapseRunsSpec : List Char → List Char
  | [] => []
  | c :: cs =>
    if c == '_' then '_' :: collapseRunsSpec (cs.dropWhile (fun x => x == '_'))
    else c :: collapseRunsSpec cs
termination_by l => l.length
decreasing_by
  · have := (List.dropWhile_sublist (l := cs) (p := fun x => x == '_')).length_le
    simp only [List.length_cons]; omega
  · simp only [List.length_cons]; omega

/-- Spec-side wording: lower-case a string character by character. -/
def lowerStr (s : String) : String :=
  ⟨s.data.map Char.toLower⟩

/-- Spec-side wording: upper-case a string character by character. -/
def upperStr (s : String) : String :=
  ⟨s.data.map Char.toUpper⟩

/-- Boolean check that a character list has no two adjacent
underscores, i.e. no run of two or more consecutive underscores. -/
def noAdjacentUnderscores : List Char → Bool
  | [] => true
  | [_] => true
  | a :: b :: t => !(a == '_' && b == '_') && noAdjacentUnderscores (b :: t)

/-!
Embedding of `get_by_name_or_uuid` from `src/djutil/models.py`, on the
abstract model with a UUID primary key and an optional unique name.
The method runs `UUID(hex=name_or_uuid, version=4)`; on success it
returns `cls.objects.get(uuid=_uuid)`, and on `ValueError` it returns
`cls.objects.get(name=name_or_uuid)`.  CPython's
`uuid.UUID(hex=..., version=4)` constructor is modelled below: the
input has `'urn:'` and `'uuid:'` occurrences removed, braces stripped
from both ends and dashes removed; the result must be exactly 32
hexadecimal digits (the leniencies of `int(s, 16)` towards signs,
whitespace, `0x` prefixes and grouping underscores are not modelled;
no claim exercises them); finally the variant bits and the version
nibble are forced, `version` being 4.  A 128-bit UUID value is carried
as a `Nat`.
-/

/-- Value of one hexadecimal digit, as accepted by `int(s, 16)`. -/
def hexDigitVal (c : Char) : Option Nat :=
  if 48 ≤ c.toNat ∧ c.toNat ≤ 57 then some (c.toNat - 48)
  else if 97 ≤ c.toNat ∧ c.toNat ≤ 102 then some (c.toNat - 87)
  else if 65 ≤ c.toNat ∧ c.toNat ≤ 70 then some (c.toNat - 55)
  else none

/-- Value of a string of hexadecimal digits, most significant first;
`none` when some character is not a hexadecimal digit. -/
def hexVal : List Char → Nat → Option Nat
  | [], acc => some acc
  | c :: cs, acc =>
    match hexDigitVal c with
    | some d => hexVal cs (16 * acc + d)
    | none => none

/-- One fuelled pass of Python's `str.replace(pat, '')`: occurrences of
`pat` are deleted left to right without overlap.  The fuel starts at
the length of the scanned list; it bounds recursion depth only and is
never exhausted, since every step consumes at least one character. -/
def pyReplaceDelGo (pat : List Char) : Nat → List Char → List Char
  | _, [] => []
  | 0, l => l
  | fuel + 1, c :: cs =>
    if pat ≠ [] ∧ pat.isPrefixOf (c :: cs) then
      pyReplaceDelGo pat fuel (List.drop (pat.length - 1) cs)
    else c :: pyReplaceDelGo pat fuel cs

/-- Model of `s.replace(pat, '')`. -/
def pyReplaceDel (pat s : List Char) : List Char :=
  pyReplaceDelGo pat s.length s

/-- Is the character one of the two braces (code points 123 and 125)? -/
def isBrace (c : Char) : Bool :=
  c.toNat == 123 || c.toNat == 125

/-- Model of Python's `str.strip('{}')` as applied by the `uuid.UUID`
constructor: remove all leading and trailing brace characters. -/
def stripBraces (l : List Char) : List Char :=
  ((l.dropWhile isBrace).reverse.dropWhile isBrace).reverse

/-- Force the RFC 4122 variant bits and the version nibble to 4, as
`uuid.UUID.__init__` does when `version=4` is passed:
clear bits 62–63 and set bit 63, then clear bits 76–79 and set the
version value 4 at bit 76. -/
def forceVersion4 (v : Nat) : Nat :=
  let mask128 : Nat := 2 ^ 128 - 1
  let v1 := v &&& (mask128 ^^^ (0xc000 <<< 48))
  let v2 := v1 ||| (0x8000 <<< 48)
  let v3 := v2 &&& (mask128 ^^^ (0xf000 <<< 64))
  v3 ||| (4 <<< 76)

/-- Model of `uuid.UUID(hex=s, version=4)`: `none` is the raised
`ValueError`, `some v` the 128-bit value of the constructed UUID. -/
def parseUUID4 (s : String) : Option Nat :=
  let h1 := pyReplaceDel "urn:".data s.data
  let h2 := pyReplaceDel "uuid:".data h1
  let h3 := stripBraces h2
  let hex := h3.filter (fun c => c != '-')
  if hex.length = 32 then
    match hexVal hex 0 with
    | some v => some (forceVersion4 v)
    | none => none
  else none

/-- A record of a model with UUID primary key and optional unique
name, as in `_ModelWithUUIDPKAndOptionalUniqueNameABC`. -/
structure UUIDNameRec where
  uuid : Nat
  name : Option String
deriving DecidableEq

/-- Embedding of `get_by_name_or_uuid`: try the UUID constructor; on
success look the object up by the constructed UUID, and on
`ValueError` look it up by exact name.  The manager `objects.get` is
modelled on a list database; `none` models `DoesNotExist`. -/
def get_by_name_or_uuid (db : List UUIDNameRec) (name_or_uuid : String) :
    Option UUIDNameRec :=
  match parseUUID4 name_or_uuid with
  | some u => db.find? (fun r => r.uuid == u)
  | none => db.find? (fun r => r.name == some name_or_uuid)

/-!
Embedding of the key/value record save from `django_utils/models.py`
(`_ModelWithPostgreSQLCICharPKAndJSONValueMixInABC.save`):

    self.key = upper_case(self.key)
    assert self.key
    super().save(*args, **kwargs)

The record's JSON value is carried as an opaque type parameter; the
save logic never inspects it.  `save` returns `some persisted` when
the assertion passes and `none` when the cleaned key is empty and the
`AssertionError` is raised before anything is persisted.
-/

/-- The key/value record: a key (case-insensitive char primary key)
and a JSON value, the value held abstractly. -/
structure EnvVarRec (V : Type) where
  key : String
  value : V
deriving DecidableEq

/-- Embedding of the key/value `save`: upper-case the key, assert it
non-empty (Python string truthiness), then persist. -/
def EnvVarRec.save {V : Type} (r : EnvVarRec V) : Option (EnvVarRec V) :=
  let r2 : EnvVarRec V := { r with key := upper_case r.key }
  if r2.key = "" then none else some r2

/-!
Embedding of `autocomplete_factory` / `AutoComplete.get_queryset` from
`src/djutil/autocompletes.py`.  A database row is a list of
field-name/value pairs; a Django `Q(field__icontains=q)` lookup is the
case-insensitive substring test on the named field.  `get_queryset`
returns `none` for the `TypeError` that `reduce(__or__, ...)` raises
on an empty sequence of lookups, and `some rows` otherwise
(`objects.none()` being `some []`).
-/

/-- A database row: field names with their string values. -/
abbrev DBRow := List (String × String)

/-- Attribute access on a row; fields outside the row read as empty
(no claim exercises a missing field). -/
def getField (r : DBRow) (f : String) : String :=
  match r.find? (fun p => p.1 == f) with
  | some p => p.2
  | none => ""

/-- Is `needle` a contiguous substring of `hay`? -/
def containsSub (needle : List Char) : List Char → Bool
  | [] => needle.isEmpty
  | c :: cs => needle.isPrefixOf (c :: cs) || containsSub needle cs

/-- Django's `icontains` lookup: case-insensitive substring
containment of `needle` in `hay`. -/
def icontains (hay needle : String) : Bool :=
  containsSub (needle.data.map Char.toLower) (hay.data.map Char.toLower)

/-- A search lookup built by the factory: the f-string
`f'{search_field}__icontains'` keeps the field name and selects the
`icontains` lookup. -/
inductive QLookup where
  | icont (field : String)
deriving DecidableEq

/-- The factory's list comprehension
`[f'{search_field}__icontains' for search_field in search_fields]`. -/
def mkLookups (search_fields : List String) : List QLookup :=
  search_fields.map QLookup.icont

/-- The factory's choice of `autocomplete_search_fields`: the explicit
`search_fields` argument when non-empty (Python truthiness of a
sequence), else the model's own `autocomplete_search_fields()` when
the attribute exists, else lookups built from the model's
`search_fields()`. -/
def autocompleteSearchFields (search_fields : List String)
    (modelAutoFields : Option (List QLookup)) (modelSearchFields : List String) :
    List QLookup :=
  if search_fields ≠ [] then mkLookups search_fields
  else
    match modelAutoFields with
    | some fs => fs
    | none => mkLookups modelSearchFields

/-- Evaluate one `Q` lookup against a row. -/
def evalQ (q : String) (lk : QLookup) (r : DBRow) : Bool :=
  match lk with
  | .icont f => icontains (getField r f) q

/-- Disjunction of two `Q` predicates, `Q.__or__`. -/
def qOr (p1 p2 : DBRow → Bool) : DBRow → Bool :=
  fun r => p1 r || p2 r

/-- Python's `functools.reduce` without initial value: `none` models
the `TypeError` raised on an empty sequence. -/
def reduce1 {α : Type} (f : α → α → α) : List α → Option α
  | [] => none
  | x :: xs => some (xs.foldl f x)

/-- Embedding of `AutoComplete.get_queryset`: unauthenticated callers
get `objects.none()`; with a non-empty query the per-field `Q`
lookups are OR-reduced and used to filter; with an empty query the
result is `objects.none()` when `data_min_input_len` is truthy and
`objects.all()` otherwise. -/
def get_queryset (lookups : List QLookup) (min_input_len : Nat)
    (auth : Bool) (q : String) (db : List DBRow) : Option (List DBRow) :=
  if auth then
    if q ≠ "" then
      match reduce1 qOr (lookups.map (evalQ q)) with
      | some p => some (db.filter p)
      | none => none
    else if min_input_len ≠ 0 then some []
    else some db
  else some []

/-!
Extended case-mapping tier.  CPython's `str.lower`/`str.upper` apply
the full Unicode case mappings and its `re` word class `\w` covers
all Unicode letters and digits but not combining marks.  The
definitions below extend the ASCII tier with exactly the non-ASCII
code points exercised by the statements of this file — µ U+00B5,
ß U+00DF, İ U+0130, Μ U+039C, μ U+03BC, ẖ U+1E96 and the combining
marks U+0307 and U+0331 — on which they agree with CPython.  Other
non-ASCII code points appear in no statement below.
-/

/-- Word class of the extended tier: ASCII word characters plus the
non-ASCII letters listed above; the combining marks U+0307 and U+0331
have Unicode category Mn and are not word characters. -/
def pyWordChar (c : Char) : Bool :=
  isWordChar c || c.toNat == 0xb5 || c.toNat == 0xdf || c.toNat == 0x130 ||
    c.toNat == 0x39c || c.toNat == 0x3bc || c.toNat == 0x1e96

/-- Full lowercase mapping of the extended tier: İ U+0130 maps to "i"
followed by combining dot above U+0307 and Μ U+039C maps to μ U+03BC,
as in CPython; ASCII is mapped as by `Char.toLower`; the remaining
listed code points are fixed by `str.lower`. -/
def pyLowerChar (c : Char) : List Char :=
  if c.toNat = 0x130 then [Char.ofNat 0x69, Char.ofNat 0x307]
  else if c.toNat = 0x39c then [Char.ofNat 0x3bc]
  else [c.toLower]

/-- Full uppercase mapping of the extended tier: µ U+00B5 and μ U+03BC
map to Μ U+039C, ß U+00DF maps to "SS", ẖ U+1E96 maps to "H" followed
by combining macron below U+0331, as in CPython; ASCII is mapped as
by `Char.toUpper`. -/
def pyUpperChar (c : Char) : List Char :=
  if c.toNat = 0xb5 then [Char.ofNat 0x39c]
  else if c.toNat = 0x3bc then [Char.ofNat 0x39c]
  else if c.toNat = 0xdf then [Char.ofNat 0x53, Char.ofNat 0x53]
  else if c.toNat = 0x1e96 then [Char.ofNat 0x48, Char.ofNat 0x331]
  else [c.toUpper]

/-- The substitution `re.sub(r'[^\w]+', '_', s)` under the extended
word class. -/
def pySubNonWordAux : Bool → List Char → List Char
  | _, [] => []
  | inRun, c :: cs =>
    if pyWordChar c then c :: pySubNonWordAux false cs
    else if inRun then pySubNonWordAux true cs
    else '_' :: pySubNonWordAux true cs

/-- `_clean` under the extended word class; the strip and collapse
steps act on underscores only and are shared with the ASCII tier. -/
def pyClean (l : List Char) : List Char :=
  collapseAux false (stripUnderscores (pySubNonWordAux false l))

/-- `str.lower` of the extended tier (one-to-many, hence `flatMap`). -/
def pyLower (s : String) : String :=
  ⟨s.data.flatMap pyLowerChar⟩

/-- `str.upper` of the extended tier. -/
def pyUpper (s : String) : String :=
  ⟨s.data.flatMap pyUpperChar⟩

/-- `snake_case` under the extended tier: `_clean(s).lower()`. -/
def snake_casePy (s : String) : String :=
  ⟨(pyClean s.data).flatMap pyLowerChar⟩

/-- `upper_case` under the extended tier: `_clean(s).upper()`. -/
def upper_casePy (s : String) : String :=
  ⟨(pyClean s.data).flatMap pyUpperChar⟩

/-- The key/value `save` of `django_utils/models.py` under the
extended case-mapping tier. -/
def EnvVarRec.savePy {V : Type} (r : EnvVarRec V) : Option (EnvVarRec V) :=
  let r2 : EnvVarRec V := { r with key := upper_casePy r.key }
  if r2.key = "" then none else some r2

/-!
Character-level facts about `Char.toLower` / `Char.toUpper` on which
the normalizer properties rest.
-/

theorem char_toNat_ofNat_valid (n : Nat) (h : n.isValidChar) :
    (Char.ofNat n).toNat = n := by
  rw [Char.ofNat, dif_pos h]
  rfl

theorem char_toNat_inj {a b : Char} (h : a.toNat = b.toNat) : a = b := by
  have ha := Char.ofNat_toNat a
  rw [h, Char.ofNat_toNat] at ha
  exact ha.symm

theorem char_toNat_toLower (c : Char) :
    c.toLower.toNat = if c.toNat ≥ 65 ∧ c.toNat ≤ 90 then c.toNat + 32 else c.toNat := by
  simp only [Char.toLower]
  split
  · exact char_toNat_ofNat_valid _ (Or.inl (by omega))
  · rfl

theorem char_toNat_toUpper (c : Char) :
    c.toUpper.toNat = if c.toNat ≥ 97 ∧ c.toNat ≤ 122 then c.toNat - 32 else c.toNat := by
  simp only [Char.toUpper]
  split
  · exact char_toNat_ofNat_valid _ (Or.inl (by omega))
  · rfl

theorem char_toLower_toLower (c : Char) : c.toLower.toLower = c.toLower := by
  apply char_toNat_inj
  simp only [char_toNat_toLower]
  split_ifs <;> omega

theorem char_toUpper_toUpper (c : Char) : c.toUpper.toUpper = c.toUpper := by
  apply char_toNat_inj
  simp only [char_toNat_toUpper]
  split_ifs <;> omega

theorem char_toLower_toUpper (c : Char) : c.toUpper.toLower = c.toLower := by
  apply char_toNat_inj
  simp only [char_toNat_toLower, char_toNat_toUpper]
  split_ifs <;> omega

theorem char_toUpper_toLower (c : Char) : c.toLower.toUpper = c.toUpper := by
  apply char_toNat_inj
  simp only [char_toNat_toUpper, char_toNat_toLower]
  split_ifs <;> omega

theorem char_underscore_toNat : ('_' : Char).toNat = 95 := rfl

theorem char_toLower_eq_underscore {c : Char} : c.toLower = '_' ↔ c = '_' := by
  constructor
  · intro h
    have h2 := congrArg Char.toNat h
    rw [char_toNat_toLower, char_underscore_toNat] at h2
    apply char_toNat_inj
    rw [char_underscore_toNat]
    split at h2 <;> omega
  · intro h
    subst h
    decide

theorem char_toUpper_eq_underscore {c : Char} : c.toUpper = '_' ↔ c = '_' := by
  constructor
  · intro h
    have h2 := congrArg Char.toNat h
    rw [char_toNat_toUpper, char_underscore_toNat] at h2
    apply char_toNat_inj
    rw [char_underscore_toNat]
    split at h2 <;> omega
  · intro h
    subst h
    decide

theorem isWordChar_iff {c : Char} :
    isWordChar c = true ↔
      (65 ≤ c.toNat ∧ c.toNat ≤ 90) ∨ (97 ≤ c.toNat ∧ c.toNat ≤ 122) ∨
        (48 ≤ c.toNat ∧ c.toNat ≤ 57) ∨ c.toNat = 95 := by
  simp [isWordChar, Bool.or_eq_true, Bool.and_eq_true, decide_eq_true_eq, or_assoc]

theorem isWordChar_toLower (c : Char) : isWordChar c.toLower = isWordChar c := by
  rw [Bool.eq_iff_iff, isWordChar_iff, isWordChar_iff, char_toNat_toLower]
  split_ifs <;> omega

theorem isWordChar_toUpper (c : Char) : isWordChar c.toUpper = isWordChar c := by
  rw [Bool.eq_iff_iff, isWordChar_iff, isWordChar_iff, char_toNat_toUpper]
  split_ifs <;> omega

/-!
Well-formedness of the normalizer output: no leading or trailing
underscore, no two adjacent underscores.
-/

theorem noAdjacentUnderscores_cons {a : Char} {t : List Char} :
    noAdjacentUnderscores (a :: t) = true ↔
      (noAdjacentUnderscores t = true ∧ (a = '_' → t.head? ≠ some '_')) := by
  cases t with
  | nil => simp [noAdjacentUnderscores]
  | cons b t2 =>
    simp [noAdjacentUnderscores]
    tauto

theorem head?_dropWhile_underscore (l : List Char) :
    (l.dropWhile (fun c => c == '_')).head? ≠ some '_' := by
  intro hcontra
  have h2 := List.head?_dropWhile_not (fun c => c == '_') l
  rw [hcontra] at h2
  simp at h2

theorem getLast?_stripUnderscores (l : List Char) :
    (stripUnderscores l).getLast? ≠ some '_' := by
  unfold stripUnderscores
  rw [List.getLast?_reverse]
  exact head?_dropWhile_underscore _

theorem head?_stripUnderscores (l : List Char) :
    (stripUnderscores l).head? ≠ some '_' := by
  unfold stripUnderscores
  rw [List.head?_reverse]
  intro hcontra
  obtain ⟨pre, hpre⟩ :=
    List.dropWhile_suffix (l := (l.dropWhile (fun c => c == '_')).reverse)
      (fun c => c == '_')
  have h2 : (l.dropWhile (fun c => c == '_')).reverse.getLast? = some '_' := by
    rw [← hpre, List.getLast?_append, hcontra]
    rfl
  rw [List.getLast?_reverse] at h2
  exact head?_dropWhile_underscore l h2

theorem collapseAux_head_true (l : List Char) :
    (collapseAux true l).head? ≠ some '_' := by
  induction l with
  | nil => simp [collapseAux]
  | cons c cs ih =>
    by_cases h : c = '_'
    · subst h
      simpa [collapseAux] using ih
    · simp [collapseAux, h]

theorem collapseAux_noAdjacent (l : List Char) :
    ∀ b, noAdjacentUnderscores (collapseAux b l) = true := by
  induction l with
  | nil => intro b; simp [collapseAux, noAdjacentUnderscores]
  | cons c cs ih =>
    intro b
    by_cases h : c = '_'
    · subst h
      cases b with
      | true => simpa [collapseAux] using ih true
      | false =>
        rw [show collapseAux false ('_' :: cs) = '_' :: collapseAux true cs from by
          simp [collapseAux]]
        rw [noAdjacentUnderscores_cons]
        exact ⟨ih true, fun _ => collapseAux_head_true cs⟩
    · rw [show collapseAux b (c :: cs) = c :: collapseAux false cs from by
        simp [collapseAux, h]]
      rw [noAdjacentUnderscores_cons]
      exact ⟨ih false, fun hc => absurd hc h⟩

theorem collapseAux_head_false (l : List Char) :
    (collapseAux false l).head? = l.head? := by
  cases l with
  | nil => rfl
  | cons c cs => by_cases h : c = '_' <;> simp [collapseAux, h]

theorem collapseAux_true_eq_nil {l : List Char} (h : collapseAux true l = []) :
    ∀ c ∈ l, c = '_' := by
  induction l with
  | nil => simp
  | cons c cs ih =>
    by_cases hc : c = '_'
    · subst hc
      rw [show collapseAux true ('_' :: cs) = collapseAux true cs from by
        simp [collapseAux]] at h
      intro x hx
      rcases List.mem_cons.mp hx with hx | hx
      · exact hx
      · exact ih h x hx
    · exfalso
      rw [show collapseAux true (c :: cs) = c :: collapseAux false cs from by
        simp [collapseAux, hc]] at h
      exact List.cons_ne_nil _ _ h

theorem getLast?_all_underscore {l : List Char} (h : ∀ c ∈ l, c = '_') :
    ('_' :: l).getLast? = some '_' := by
  induction l with
  | nil => rfl
  | cons c cs ih =>
    rw [List.getLast?_cons_cons]
    have hc : c = '_' := h c (by simp)
    subst hc
    exact ih fun x hx => h x (by simp [hx])

theorem collapseAux_getLast (l : List Char) :
    ∀ b, (collapseAux b l).getLast? = some '_' → l.getLast? = some '_' := by
  induction l with
  | nil =>
    intro b h
    simp [collapseAux] at h
  | cons c cs ih =>
    intro b h
    by_cases hc : c = '_'
    · subst hc
      cases b with
      | true =>
        rw [show collapseAux true ('_' :: cs) = collapseAux true cs from by
          simp [collapseAux]] at h
        have h2 := ih true h
        cases cs with
        | nil => simp at h2
        | cons b2 t2 => rw [List.getLast?_cons_cons]; exact h2
      | false =>
        rw [show collapseAux false ('_' :: cs) = '_' :: collapseAux true cs from by
          simp [collapseAux]] at h
        cases hrest : collapseAux true cs with
        | nil => exact getLast?_all_underscore (collapseAux_true_eq_nil hrest)
        | cons y ys =>
          rw [hrest, List.getLast?_cons_cons] at h
          have h2 := ih true (by rw [hrest]; exact h)
          cases cs with
          | nil => simp at h2
          | cons b2 t2 => rw [List.getLast?_cons_cons]; exact h2
    · rw [show collapseAux b (c :: cs) = c :: collapseAux false cs from by
        simp [collapseAux, hc]] at h
      cases hrest : collapseAux false cs with
      | nil =>
        rw [hrest] at h
        simp at h
        exact absurd h hc
      | cons y ys =>
        rw [hrest, List.getLast?_cons_cons] at h
        have h2 := ih false (by rw [hrest]; exact h)
        cases cs with
        | nil => simp [collapseAux] at hrest
        | cons b2 t2 => rw [List.getLast?_cons_cons]; exact h2

theorem _clean_head? (l : List Char) : (_clean l).head? ≠ some '_' := by
  unfold _clean
  rw [collapseAux_head_false]
  exact head?_stripUnderscores _

theorem _clean_getLast? (l : List Char) : (_clean l).getLast? ≠ some '_' :=
  fun h => getLast?_stripUnderscores _ (collapseAux_getLast _ false h)

theorem _clean_noAdjacent (l : List Char) :
    noAdjacentUnderscores (_clean l) = true :=
  collapseAux_noAdjacent _ false

theorem head?_map_underscore {f : Char → Char} (hf : ∀ c, f c = '_' ↔ c = '_')
    (l : List Char) : ((l.map f).head? = some '_') ↔ (l.head? = some '_') := by
  rw [List.head?_map]
  cases l.head? with
  | none => simp
  | some x => simp [hf x]

theorem noAdjacentUnderscores_map {f : Char → Char}
    (hf : ∀ c, f c = '_' ↔ c = '_') (l : List Char) :
    noAdjacentUnderscores (l.map f) = noAdjacentUnderscores l := by
  induction l with
  | nil => rfl
  | cons a t ih =>
    rw [List.map_cons, Bool.eq_iff_iff, noAdjacentUnderscores_cons,
      noAdjacentUnderscores_cons, ih]
    exact and_congr Iff.rfl (imp_congr (hf a) (not_congr (head?_map_underscore hf t)))

theorem getLast?_map_underscore {f : Char → Char} (hf : ∀ c, f c = '_' ↔ c = '_')
    (l : List Char) : ((l.map f).getLast? = some '_') ↔ (l.getLast? = some '_') := by
  rw [List.getLast?_map]
  cases l.getLast? with
  | none => simp
  | some x => simp [hf x]

/-- C3: for every input string, the outputs of `snake_case` and
`upper_case` contain no leading underscore, no trailing underscore,
and no run of two or more consecutive underscores. -/
theorem claim_C3_normalizer_output_wellformed :
    ∀ s : String,
      (((snake_case s).data.head? == some '_') = false) ∧
      (((snake_case s).data.getLast? == some '_') = false) ∧
      noAdjacentUnderscores (snake_case s).data = true ∧
      (((upper_case s).data.head? == some '_') = false) ∧
      (((upper_case s).data.getLast? == some '_') = false) ∧
      noAdjacentUnderscores (upper_case s).data = true := by
  intro s
  have hdata_l : (snake_case s).data = (_clean s.data).map Char.toLower := rfl
  have hdata_u : (upper_case s).data = (_clean s.data).map Char.toUpper := rfl
  have hfl : ∀ c : Char, c.toLower = '_' ↔ c = '_' := fun c => char_toLower_eq_underscore
  have hfu : ∀ c : Char, c.toUpper = '_' ↔ c = '_' := fun c => char_toUpper_eq_underscore
  refine ⟨?_, ?_, ?_, ?_, ?_, ?_⟩
  · rw [beq_eq_false_iff_ne, hdata_l]
    exact fun h => _clean_head? s.data ((head?_map_underscore hfl _).mp h)
  · rw [beq_eq_false_iff_ne, hdata_l]
    exact fun h => _clean_getLast? s.data ((getLast?_map_underscore hfl _).mp h)
  · rw [hdata_l, noAdjacentUnderscores_map hfl]
    exact _clean_noAdjacent s.data
  · rw [beq_eq_false_iff_ne, hdata_u]
    exact fun h => _clean_head? s.data ((head?_map_underscore hfu _).mp h)
  · rw [beq_eq_false_iff_ne, hdata_u]
    exact fun h => _clean_getLast? s.data ((getLast?_map_underscore hfu _).mp h)
  · rw [hdata_u, noAdjacentUnderscores_map hfu]
    exact _clean_noAdjacent s.data

/-!
Idempotence of the normalizers: `_clean` leaves an already-normalized
list unchanged, and the case maps are idempotent character-wise.
-/

theorem isWordChar_underscore : isWordChar '_' = true := by decide

theorem subNonWordAux_allWord (l : List Char) :
    ∀ b, ∀ c ∈ subNonWordAux b l, isWordChar c = true := by
  induction l with
  | nil => intro b c hc; simp [subNonWordAux] at hc
  | cons a t ih =>
    intro b c hc
    cases h : isWordChar a with
    | true =>
      rw [show subNonWordAux b (a :: t) = a :: subNonWordAux false t from by
        simp [subNonWordAux, h]] at hc
      rcases List.mem_cons.mp hc with rfl | hc
      · exact h
      · exact ih false c hc
    | false =>
      cases b with
      | true =>
        rw [show subNonWordAux true (a :: t) = subNonWordAux true t from by
          simp [subNonWordAux, h]] at hc
        exact ih true c hc
      | false =>
        rw [show subNonWordAux false (a :: t) = '_' :: subNonWordAux true t from by
          simp [subNonWordAux, h]] at hc
        rcases List.mem_cons.mp hc with rfl | hc
        · exact isWordChar_underscore
        · exact ih true c hc

theorem mem_stripUnderscores {c : Char} {l : List Char}
    (h : c ∈ stripUnderscores l) : c ∈ l := by
  unfold stripUnderscores at h
  rw [List.mem_reverse] at h
  have h2 := (List.dropWhile_sublist
    (l := (l.dropWhile (fun c => c == '_')).reverse)
    (p := fun c => c == '_')).subset h
  rw [List.mem_reverse] at h2
  exact (List.dropWhile_sublist (l := l) (p := fun c => c == '_')).subset h2

theorem mem_collapseAux {c : Char} {l : List Char} :
    ∀ b, c ∈ collapseAux b l → c ∈ l ∨ c = '_' := by
  induction l with
  | nil => intro b hc; simp [collapseAux] at hc
  | cons a t ih =>
    intro b hc
    by_cases ha : a = '_'
    · subst ha
      cases b with
      | true =>
        rw [show collapseAux true ('_' :: t) = collapseAux true t from by
          simp [collapseAux]] at hc
        rcases ih true hc with h | h
        · exact Or.inl (List.mem_cons_of_mem _ h)
        · exact Or.inr h
      | false =>
        rw [show collapseAux false ('_' :: t) = '_' :: collapseAux true t from by
          simp [collapseAux]] at hc
        rcases List.mem_cons.mp hc with rfl | hc
        · exact Or.inr rfl
        · rcases ih true hc with h | h
          · exact Or.inl (List.mem_cons_of_mem _ h)
          · exact Or.inr h
    · rw [show collapseAux b (a :: t) = a :: collapseAux false t from by
        simp [collapseAux, ha]] at hc
      rcases List.mem_cons.mp hc with rfl | hc
      · exact Or.inl (List.mem_cons_self _ _)
      · rcases ih false hc with h | h
        · exact Or.inl (List.mem_cons_of_mem _ h)
        · exact Or.inr h

theorem _clean_allWord (l : List Char) :
    ∀ c ∈ _clean l, isWordChar c = true := by
  intro c hc
  rcases mem_collapseAux false hc with h | h
  · exact subNonWordAux_allWord l false c (mem_stripUnderscores h)
  · subst h; exact isWordChar_underscore

theorem subNonWordAux_false_eq_self {l : List Char}
    (h : ∀ c ∈ l, isWordChar c = true) : subNonWordAux false l = l := by
  induction l with
  | nil => rfl
  | cons a t ih =>
    have ha := h a (by simp)
    rw [show subNonWordAux false (a :: t) = a :: subNonWordAux false t from by
      simp [subNonWordAux, ha]]
    rw [ih fun c hc => h c (by simp [hc])]

theorem dropWhile_underscore_eq_self {l : List Char} (h : l.head? ≠ some '_') :
    l.dropWhile (fun c => c == '_') = l := by
  cases l with
  | nil => rfl
  | cons a t =>
    have ha : ¬ ((a == '_') = true) := by
      intro hc
      rw [beq_iff_eq] at hc
      exact h (by rw [hc]; rfl)
    exact List.dropWhile_cons_of_neg ha

theorem stripUnderscores_eq_self {l : List Char} (h1 : l.head? ≠ some '_')
    (h2 : l.getLast? ≠ some '_') : stripUnderscores l = l := by
  unfold stripUnderscores
  rw [dropWhile_underscore_eq_self h1]
  rw [dropWhile_underscore_eq_self (by rw [List.head?_reverse]; exact h2)]
  exact List.reverse_reverse l

theorem collapseAux_eq_self {l : List Char} (h : noAdjacentUnderscores l = true) :
    ∀ b, (b = true → l.head? ≠ some '_') → collapseAux b l = l := by
  induction l with
  | nil => intro b _; rfl
  | cons a t ih =>
    intro b hb
    have hparts := noAdjacentUnderscores_cons.mp h
    by_cases ha : a = '_'
    · subst ha
      cases b with
      | true => exact absurd rfl (hb rfl)
      | false =>
        rw [show collapseAux false ('_' :: t) = '_' :: collapseAux true t from by
          simp [collapseAux]]
        rw [ih hparts.1 true fun _ => hparts.2 rfl]
    · rw [show collapseAux b (a :: t) = a :: collapseAux false t from by
        simp [collapseAux, ha]]
      rw [ih hparts.1 false fun e => (Bool.false_ne_true e).elim]

theorem _clean_eq_self {l : List Char} (hw : ∀ c ∈ l, isWordChar c = true)
    (h1 : l.head? ≠ some '_') (h2 : l.getLast? ≠ some '_')
    (h3 : noAdjacentUnderscores l = true) : _clean l = l := by
  unfold _clean subNonWord
  rw [subNonWordAux_false_eq_self hw, stripUnderscores_eq_self h1 h2]
  exact collapseAux_eq_self h3 false fun e => (Bool.false_ne_true e).elim

theorem snake_case_idem (s : String) : snake_case (snake_case s) = snake_case s := by
  refine congrArg String.mk ?_
  show (_clean ((_clean s.data).map Char.toLower)).map Char.toLower =
    (_clean s.data).map Char.toLower
  have hfl : ∀ c : Char, c.toLower = '_' ↔ c = '_' := fun c => char_toLower_eq_underscore
  have hw : ∀ c ∈ (_clean s.data).map Char.toLower, isWordChar c = true := by
    intro c hc
    rcases List.mem_map.mp hc with ⟨a, ha, rfl⟩
    rw [isWordChar_toLower]
    exact _clean_allWord s.data a ha
  rw [_clean_eq_self hw
    (fun h => _clean_head? s.data ((head?_map_underscore hfl _).mp h))
    (fun h => _clean_getLast? s.data ((getLast?_map_underscore hfl _).mp h))
    (by rw [noAdjacentUnderscores_map hfl]; exact _clean_noAdjacent s.data)]
  rw [List.map_map]
  exact List.map_congr_left fun a _ => char_toLower_toLower a

theorem upper_case_idem (s : String) : upper_case (upper_case s) = upper_case s := by
  refine congrArg String.mk ?_
  show (_clean ((_clean s.data).map Char.toUpper)).map Char.toUpper =
    (_clean s.data).map Char.toUpper
  have hfu : ∀ c : Char, c.toUpper = '_' ↔ c = '_' := fun c => char_toUpper_eq_underscore
  have hw : ∀ c ∈ (_clean s.data).map Char.toUpper, isWordChar c = true := by
    intro c hc
    rcases List.mem_map.mp hc with ⟨a, ha, rfl⟩
    rw [isWordChar_toUpper]
    exact _clean_allWord s.data a ha
  rw [_clean_eq_self hw
    (fun h => _clean_head? s.data ((head?_map_underscore hfu _).mp h))
    (fun h => _clean_getLast? s.data ((getLast?_map_underscore hfu _).mp h))
    (by rw [noAdjacentUnderscores_map hfu]; exact _clean_noAdjacent s.data)]
  rw [List.map_map]
  exact List.map_congr_left fun a _ => char_toUpper_toUpper a

/-- Helper for the case relation on the ASCII tier: lower-casing
`upper_case s` yields `snake_case s`. -/
theorem lowerStr_upper_case (s : String) : lowerStr (upper_case s) = snake_case s := by
  refine congrArg String.mk ?_
  show ((_clean s.data).map Char.toUpper).map Char.toLower =
    (_clean s.data).map Char.toLower
  rw [List.map_map]
  exact List.map_congr_left fun a _ => char_toLower_toUpper a

/-- Helper for the case relation on the ASCII tier: upper-casing
`snake_case s` yields `upper_case s`. -/
theorem upperStr_snake_case (s : String) : upperStr (snake_case s) = upper_case s := by
  refine congrArg String.mk ?_
  show ((_clean s.data).map Char.toLower).map Char.toUpper =
    (_clean s.data).map Char.toUpper
  rw [List.map_map]
  exact List.map_congr_left fun a _ => char_toUpper_toLower a

/-!
Equivalence of the executable normalizer with the spec-side wording of
the pipeline (claim C2).
-/

theorem subNonWordAux_eq_replaceNonWordRuns (l : List Char) :
    subNonWordAux false l = replaceNonWordRuns l ∧
      subNonWordAux true l =
        replaceNonWordRuns (l.dropWhile (fun x => ! isWordChar x)) := by
  induction l with
  | nil => constructor <;> simp [subNonWordAux, replaceNonWordRuns]
  | cons c cs ih =>
    cases h : isWordChar c with
    | true =>
      constructor
      · rw [show subNonWordAux false (c :: cs) = c :: subNonWordAux false cs from by
          simp [subNonWordAux, h]]
        rw [ih.1]
        rw [show replaceNonWordRuns (c :: cs) = c :: replaceNonWordRuns cs from by
          simp [replaceNonWordRuns, h]]
      · rw [show subNonWordAux true (c :: cs) = c :: subNonWordAux false cs from by
          simp [subNonWordAux, h]]
        rw [List.dropWhile_cons_of_neg (by simp [h])]
        rw [ih.1]
        rw [show replaceNonWordRuns (c :: cs) = c :: replaceNonWordRuns cs from by
          simp [replaceNonWordRuns, h]]
    | false =>
      constructor
      · rw [show subNonWordAux false (c :: cs) = '_' :: subNonWordAux true cs from by
          simp [subNonWordAux, h]]
        rw [ih.2]
        rw [show replaceNonWordRuns (c :: cs) =
            '_' :: replaceNonWordRuns (cs.dropWhile (fun x => ! isWordChar x)) from by
          simp [replaceNonWordRuns, h]]
      · rw [show subNonWordAux true (c :: cs) = subNonWordAux true cs from by
          simp [subNonWordAux, h]]
        rw [List.dropWhile_cons_of_pos (by simp [h])]
        exact ih.2

theorem collapseAux_eq_collapseRunsSpec (l : List Char) :
    collapseAux false l = collapseRunsSpec l ∧
      collapseAux true l = collapseRunsSpec (l.dropWhile (fun x => x == '_')) := by
  induction l with
  | nil => constructor <;> simp [collapseAux, collapseRunsSpec]
  | cons c cs ih =>
    by_cases h : c = '_'
    · subst h
      constructor
      · rw [show collapseAux false ('_' :: cs) = '_' :: collapseAux true cs from by
          simp [collapseAux]]
        rw [ih.2]
        rw [show collapseRunsSpec ('_' :: cs) =
            '_' :: collapseRunsSpec (cs.dropWhile (fun x => x == '_')) from by
          simp [collapseRunsSpec]]
      · rw [show collapseAux true ('_' :: cs) = collapseAux true cs from by
          simp [collapseAux]]
        rw [List.dropWhile_cons_of_pos (by simp)]
        exact ih.2
    · constructor
      · rw [show collapseAux false (c :: cs) = c :: collapseAux false cs from by
          simp [collapseAux, h]]
        rw [ih.1]
        rw [show collapseRunsSpec (c :: cs) = c :: collapseRunsSpec cs from by
          simp [collapseRunsSpec, h]]
      · rw [show collapseAux true (c :: cs) = c :: collapseAux false cs from by
          simp [collapseAux, h]]
        rw [List.dropWhile_cons_of_neg (by simp [h])]
        rw [ih.1]
        rw [show collapseRunsSpec (c :: cs) = c :: collapseRunsSpec cs from by
          simp [collapseRunsSpec, h]]

/-- C2: `snake_case` equals the spec-described pipeline — replace each
maximal run of non-word characters with one underscore, strip leading
and trailing underscores, collapse repeated underscores, lower-case —
and `upper_case` is the same with upper-casing; with the concrete
examples on the input given in the spec. -/
theorem claim_C2_normalizer_pipeline :
    (∀ s : String, snake_case s =
        lowerStr ⟨collapseRunsSpec (stripUnderscores (replaceNonWordRuns s.data))⟩) ∧
    (∀ s : String, upper_case s =
        upperStr ⟨collapseRunsSpec (stripUnderscores (replaceNonWordRuns s.data))⟩) ∧
    snake_case "Hello__World!!" = "hello_world" ∧
    upper_case "Hello__World!!" = "HELLO_WORLD" := by
  refine ⟨?_, ?_, by decide, by decide⟩
  · intro s
    refine congrArg String.mk ?_
    show (_clean s.data).map Char.toLower =
      (collapseRunsSpec (stripUnderscores (replaceNonWordRuns s.data))).map Char.toLower
    unfold _clean subNonWord
    rw [(subNonWordAux_eq_replaceNonWordRuns s.data).1,
      (collapseAux_eq_collapseRunsSpec (stripUnderscores (replaceNonWordRuns s.data))).1]
  · intro s
    refine congrArg String.mk ?_
    show (_clean s.data).map Char.toUpper =
      (collapseRunsSpec (stripUnderscores (replaceNonWordRuns s.data))).map Char.toUpper
    unfold _clean subNonWord
    rw [(subNonWordAux_eq_replaceNonWordRuns s.data).1,
      (collapseAux_eq_collapseRunsSpec (stripUnderscores (replaceNonWordRuns s.data))).1]

/-!
Claims on `get_by_name_or_uuid`, the key/value save, and the
autocomplete handler.
-/

/-- C1: `get_by_name_or_uuid` first attempts to parse its argument as
a UUID and, on success, looks the object up by the parsed UUID value;
when parsing raises `ValueError` it falls back to an exact name match.
The spec's UUID-shaped input resolves via the UUID path (with the
version-4 constructor's forced variant/version bits) and
`"my-service"` via the name path. -/
theorem claim_C1_get_by_name_or_uuid :
    (∀ (db : List UUIDNameRec) (s : String) (u : Nat), parseUUID4 s = some u →
        get_by_name_or_uuid db s = db.find? (fun r => r.uuid == u)) ∧
    (∀ (db : List UUIDNameRec) (s : String), parseUUID4 s = none →
        get_by_name_or_uuid db s = db.find? (fun r => r.name == some s)) ∧
    parseUUID4 "123e4567-e89b-12d3-a456-426614174000" =
      some 0x123e4567e89b42d3a456426614174000 ∧
    get_by_name_or_uuid [⟨0x123e4567e89b42d3a456426614174000, none⟩]
        "123e4567-e89b-12d3-a456-426614174000" =
      some ⟨0x123e4567e89b42d3a456426614174000, none⟩ ∧
    parseUUID4 "my-service" = none ∧
    get_by_name_or_uuid [⟨7, some "my-service"⟩, ⟨8, some "other"⟩] "my-service" =
      some ⟨7, some "my-service"⟩ := by
  refine ⟨?_, ?_, by decide, by decide, by decide, by decide⟩
  · intro db s u h
    unfold get_by_name_or_uuid
    rw [h]
  · intro db s h
    unfold get_by_name_or_uuid
    rw [h]

theorem claim_C1_get_by_name_or_uuid_witness :
    get_by_name_or_uuid [] "123e4567-e89b-12d3-a456-426614174000" =
      List.find? (fun r => r.uuid == 0x123e4567e89b42d3a456426614174000)
        ([] : List UUIDNameRec) ∧
    get_by_name_or_uuid [] "my-service" =
      List.find? (fun r => r.name == some "my-service") ([] : List UUIDNameRec) :=
  ⟨claim_C1_get_by_name_or_uuid.1 [] _ _ (by decide),
   claim_C1_get_by_name_or_uuid.2.1 [] _ (by decide)⟩

/-- C7: the key/value save asserts the cleaned key non-empty: when
`upper_case` of the key is the empty string, save raises the
assertion (returns none, persisting nothing); otherwise the assertion
passes and the record with the cleaned key is persisted. -/
theorem claim_C7_save_asserts_nonempty_key :
    ∀ (V : Type) (r : EnvVarRec V),
      (upper_case r.key = "" → r.save = none) ∧
      (upper_case r.key ≠ "" → r.save = some ⟨upper_case r.key, r.value⟩) := by
  intro V r
  constructor
  · intro h
    show (if upper_case r.key = "" then (none : Option (EnvVarRec V))
        else some ⟨upper_case r.key, r.value⟩) = none
    rw [if_pos h]
  · intro h
    show (if upper_case r.key = "" then (none : Option (EnvVarRec V))
        else some ⟨upper_case r.key, r.value⟩) = some ⟨upper_case r.key, r.value⟩
    rw [if_neg h]

theorem claim_C7_save_asserts_nonempty_key_witness :
    EnvVarRec.save (⟨"!!!", ()⟩ : EnvVarRec Unit) = none ∧
    EnvVarRec.save (⟨"db_host", 0⟩ : EnvVarRec Nat) = some ⟨"DB_HOST", 0⟩ :=
  ⟨(claim_C7_save_asserts_nonempty_key Unit ⟨"!!!", ()⟩).1 (by decide),
   ((claim_C7_save_asserts_nonempty_key Nat ⟨"db_host", 0⟩).2 (by decide)).trans
     (by decide)⟩

/-- C8: an unauthenticated caller receives an empty result from
`get_queryset`, for every query string and configuration: the result
does not depend on the query content. -/
theorem claim_C8_unauthenticated_empty :
    ∀ (lookups : List QLookup) (min_input_len : Nat) (q : String) (db : List DBRow),
      get_queryset lookups min_input_len false q db = some [] := by
  intro lookups m q db
  rfl

theorem foldl_qOr_eval (xs : List (DBRow → Bool)) (x : DBRow → Bool) (r : DBRow) :
    (xs.foldl qOr x) r = (x r || xs.any (fun p => p r)) := by
  induction xs generalizing x with
  | nil => simp
  | cons y ys ih =>
    rw [List.foldl_cons, ih (qOr x y)]
    simp [qOr, Bool.or_assoc]

/-- C9: for an authenticated caller with a non-empty query, a handler
built from a non-empty list of search fields returns exactly the rows
in which at least one configured field case-insensitively contains
the query as a substring, the per-field conditions OR-combined. -/
theorem claim_C9_authenticated_search :
    ∀ (fields : List String) (min_input_len : Nat) (db : List DBRow) (q : String),
      q ≠ "" → fields ≠ [] →
      get_queryset (mkLookups fields) min_input_len true q db =
        some (db.filter (fun r => fields.any (fun f => icontains (getField r f) q))) := by
  intro fields m db q hq hf
  cases fields with
  | nil => exact absurd rfl hf
  | cons f fs =>
    unfold get_queryset
    simp only [mkLookups, List.map_cons, reduce1, hq, if_true, ne_eq,
      not_false_eq_true, if_pos]
    refine congrArg some ?_
    refine List.filter_congr ?_
    intro r _
    rw [foldl_qOr_eval]
    have hany : ∀ gs : List String,
        (List.map (evalQ q) (List.map QLookup.icont gs)).any (fun p => p r) =
          gs.any fun f2 => icontains (getField r f2) q := by
      intro gs
      induction gs with
      | nil => rfl
      | cons a t iht =>
        simp only [List.map_cons, List.any_cons, iht]
        rfl
    rw [hany, List.any_cons]
    rfl

theorem claim_C9_authenticated_search_witness :
    get_queryset (mkLookups ["name"]) 0 true "serv"
        [[("name", "My-Service")], [("name", "other")]] =
      some [[("name", "My-Service")]] :=
  (claim_C9_authenticated_search ["name"] 0
      [[("name", "My-Service")], [("name", "other")]] "serv"
      (by decide) (by decide)).trans (by decide)

/-- C10: built with an empty search-field list and a model supplying
none, the handler's effective lookup list is empty; an authenticated
request with a non-empty query then hits `reduce` over an empty
sequence with no initial value and raises; the empty-query branches
(empty result under a minimum-input-length threshold, all rows
otherwise) are unaffected. -/
theorem claim_C10_empty_search_fields_error :
    autocompleteSearchFields [] none [] = [] ∧
    (∀ (min_input_len : Nat) (db : List DBRow) (q : String), q ≠ "" →
        get_queryset [] min_input_len true q db = none) ∧
    (∀ (min_input_len : Nat) (db : List DBRow), min_input_len ≠ 0 →
        get_queryset [] min_input_len true "" db = some []) ∧
    (∀ db : List DBRow, get_queryset [] 0 true "" db = some db) := by
  refine ⟨rfl, ?_, ?_, fun db => rfl⟩
  · intro m db q hq
    unfold get_queryset
    simp [hq, reduce1]
  · intro m db hm
    unfold get_queryset
    simp [hm]

theorem claim_C10_empty_search_fields_error_witness :
    get_queryset [] 0 true "x" [] = none ∧
    get_queryset [] 1 true "" [[("a", "b")]] = some [] ∧
    get_queryset [] 0 true "" [[("a", "b")]] = some [[("a", "b")]] :=
  ⟨claim_C10_empty_search_fields_error.2.1 0 [] "x" (by decide),
   claim_C10_empty_search_fields_error.2.2.1 1 [[("a", "b")]] (by decide),
   claim_C10_empty_search_fields_error.2.2.2 [[("a", "b")]]⟩

/-!
Agreement of the two case-mapping tiers on all-ASCII inputs, and the
corrected normalizer claims: the extended tier refutes idempotence,
the case relation and the saved-key fixed-point invariant, which hold
restricted to ASCII inputs.
-/

theorem pyWordChar_ascii {c : Char} (h : c.toNat < 128) :
    pyWordChar c = isWordChar c := by
  unfold pyWordChar
  rw [show (c.toNat == 0xb5) = false from beq_eq_false_iff_ne.mpr (by omega),
    show (c.toNat == 0xdf) = false from beq_eq_false_iff_ne.mpr (by omega),
    show (c.toNat == 0x130) = false from beq_eq_false_iff_ne.mpr (by omega),
    show (c.toNat == 0x39c) = false from beq_eq_false_iff_ne.mpr (by omega),
    show (c.toNat == 0x3bc) = false from beq_eq_false_iff_ne.mpr (by omega),
    show (c.toNat == 0x1e96) = false from beq_eq_false_iff_ne.mpr (by omega)]
  simp

theorem pyLowerChar_ascii {c : Char} (h : c.toNat < 128) :
    pyLowerChar c = [c.toLower] := by
  unfold pyLowerChar
  rw [if_neg (by omega), if_neg (by omega)]

theorem pyUpperChar_ascii {c : Char} (h : c.toNat < 128) :
    pyUpperChar c = [c.toUpper] := by
  unfold pyUpperChar
  rw [if_neg (by omega), if_neg (by omega), if_neg (by omega), if_neg (by omega)]

theorem pySubNonWordAux_ascii {l : List Char} (h : ∀ c ∈ l, c.toNat < 128) :
    ∀ b, pySubNonWordAux b l = subNonWordAux b l := by
  induction l with
  | nil => intro b; rfl
  | cons a t ih =>
    intro b
    have ha := pyWordChar_ascii (h a (by simp))
    have ht : ∀ c ∈ t, c.toNat < 128 := fun c hc => h c (by simp [hc])
    cases hw : isWordChar a with
    | true =>
      rw [show pySubNonWordAux b (a :: t) = a :: pySubNonWordAux false t from by
        simp [pySubNonWordAux, ha, hw]]
      rw [show subNonWordAux b (a :: t) = a :: subNonWordAux false t from by
        simp [subNonWordAux, hw]]
      rw [ih ht false]
    | false =>
      cases b with
      | true =>
        rw [show pySubNonWordAux true (a :: t) = pySubNonWordAux true t from by
          simp [pySubNonWordAux, ha, hw]]
        rw [show subNonWordAux true (a :: t) = subNonWordAux true t from by
          simp [subNonWordAux, hw]]
        exact ih ht true
      | false =>
        rw [show pySubNonWordAux false (a :: t) = '_' :: pySubNonWordAux true t from by
          simp [pySubNonWordAux, ha, hw]]
        rw [show subNonWordAux false (a :: t) = '_' :: subNonWordAux true t from by
          simp [subNonWordAux, hw]]
        rw [ih ht true]

theorem flatMap_pyLowerChar_ascii {l : List Char} (h : ∀ c ∈ l, c.toNat < 128) :
    l.flatMap pyLowerChar = l.map Char.toLower := by
  induction l with
  | nil => rfl
  | cons a t ih =>
    rw [List.flatMap_cons, List.map_cons, pyLowerChar_ascii (h a (by simp)),
      ih fun c hc => h c (by simp [hc])]
    rfl

theorem flatMap_pyUpperChar_ascii {l : List Char} (h : ∀ c ∈ l, c.toNat < 128) :
    l.flatMap pyUpperChar = l.map Char.toUpper := by
  induction l with
  | nil => rfl
  | cons a t ih =>
    rw [List.flatMap_cons, List.map_cons, pyUpperChar_ascii (h a (by simp)),
      ih fun c hc => h c (by simp [hc])]
    rfl

theorem mem_subNonWordAux {c : Char} {l : List Char} :
    ∀ b, c ∈ subNonWordAux b l → c ∈ l ∨ c = '_' := by
  induction l with
  | nil => intro b hc; simp [subNonWordAux] at hc
  | cons a t ih =>
    intro b hc
    cases hw : isWordChar a with
    | true =>
      rw [show subNonWordAux b (a :: t) = a :: subNonWordAux false t from by
        simp [subNonWordAux, hw]] at hc
      rcases List.mem_cons.mp hc with rfl | hc
      · exact Or.inl (List.mem_cons_self _ _)
      · rcases ih false hc with h1 | h1
        · exact Or.inl (List.mem_cons_of_mem _ h1)
        · exact Or.inr h1
    | false =>
      cases b with
      | true =>
        rw [show subNonWordAux true (a :: t) = subNonWordAux true t from by
          simp [subNonWordAux, hw]] at hc
        rcases ih true hc with h1 | h1
        · exact Or.inl (List.mem_cons_of_mem _ h1)
        · exact Or.inr h1
      | false =>
        rw [show subNonWordAux false (a :: t) = '_' :: subNonWordAux true t from by
          simp [subNonWordAux, hw]] at hc
        rcases List.mem_cons.mp hc with rfl | hc
        · exact Or.inr rfl
        · rcases ih true hc with h1 | h1
          · exact Or.inl (List.mem_cons_of_mem _ h1)
          · exact Or.inr h1

theorem _clean_ascii {l : List Char} (h : ∀ c ∈ l, c.toNat < 128) :
    ∀ c ∈ _clean l, c.toNat < 128 := by
  intro c hc
  have hc2 : c ∈ collapseAux false (stripUnderscores (subNonWord l)) := hc
  rcases mem_collapseAux false hc2 with h1 | h1
  · have h1b : c ∈ subNonWordAux false l := mem_stripUnderscores h1
    rcases mem_subNonWordAux false h1b with h2 | h2
    · exact h c h2
    · subst h2; decide
  · subst h1; decide

theorem char_toLower_lt_128 {c : Char} (h : c.toNat < 128) :
    c.toLower.toNat < 128 := by
  rw [char_toNat_toLower]
  split_ifs <;> omega

theorem char_toUpper_lt_128 {c : Char} (h : c.toNat < 128) :
    c.toUpper.toNat < 128 := by
  rw [char_toNat_toUpper]
  split_ifs <;> omega

theorem snake_case_data_ascii {s : String} (h : ∀ c ∈ s.data, c.toNat < 128) :
    ∀ c ∈ (snake_case s).data, c.toNat < 128 := by
  intro c hc
  have hc2 : c ∈ (_clean s.data).map Char.toLower := hc
  rcases List.mem_map.mp hc2 with ⟨a, ha, rfl⟩
  exact char_toLower_lt_128 (_clean_ascii h a ha)

theorem upper_case_data_ascii {s : String} (h : ∀ c ∈ s.data, c.toNat < 128) :
    ∀ c ∈ (upper_case s).data, c.toNat < 128 := by
  intro c hc
  have hc2 : c ∈ (_clean s.data).map Char.toUpper := hc
  rcases List.mem_map.mp hc2 with ⟨a, ha, rfl⟩
  exact char_toUpper_lt_128 (_clean_ascii h a ha)

theorem snake_casePy_ascii {s : String} (h : ∀ c ∈ s.data, c.toNat < 128) :
    snake_casePy s = snake_case s := by
  refine congrArg String.mk ?_
  show (pyClean s.data).flatMap pyLowerChar = (_clean s.data).map Char.toLower
  have hcl : pyClean s.data = _clean s.data := by
    unfold pyClean _clean subNonWord
    rw [pySubNonWordAux_ascii h false]
  rw [hcl]
  exact flatMap_pyLowerChar_ascii (_clean_ascii h)

theorem upper_casePy_ascii {s : String} (h : ∀ c ∈ s.data, c.toNat < 128) :
    upper_casePy s = upper_case s := by
  refine congrArg String.mk ?_
  show (pyClean s.data).flatMap pyUpperChar = (_clean s.data).map Char.toUpper
  have hcl : pyClean s.data = _clean s.data := by
    unfold pyClean _clean subNonWord
    rw [pySubNonWordAux_ascii h false]
  rw [hcl]
  exact flatMap_pyUpperChar_ascii (_clean_ascii h)

theorem pyLower_ascii {s : String} (h : ∀ c ∈ s.data, c.toNat < 128) :
    pyLower s = lowerStr s :=
  congrArg String.mk (flatMap_pyLowerChar_ascii h)

theorem pyUpper_ascii {s : String} (h : ∀ c ∈ s.data, c.toNat < 128) :
    pyUpper s = upperStr s :=
  congrArg String.mk (flatMap_pyUpperChar_ascii h)

/-- C4 counterexample: under CPython's full case mappings the
normalizers are not idempotent.  snake_case of İ (U+0130) is "i"
followed by combining dot above (U+0307), whose re-normalization is
"i"; upper_case of ẖ (U+1E96) is "H" followed by combining macron
below (U+0331), whose re-normalization is "H". -/
theorem claim_C4_normalizer_idempotent_cex :
    snake_casePy (String.mk [Char.ofNat 0x130]) =
      String.mk [Char.ofNat 0x69, Char.ofNat 0x307] ∧
    snake_casePy (snake_casePy (String.mk [Char.ofNat 0x130])) =
      String.mk [Char.ofNat 0x69] ∧
    ((snake_casePy (snake_casePy (String.mk [Char.ofNat 0x130])) ==
        snake_casePy (String.mk [Char.ofNat 0x130])) = false) ∧
    upper_casePy (String.mk [Char.ofNat 0x1e96]) =
      String.mk [Char.ofNat 0x48, Char.ofNat 0x331] ∧
    upper_casePy (upper_casePy (String.mk [Char.ofNat 0x1e96])) =
      String.mk [Char.ofNat 0x48] ∧
    ((upper_casePy (upper_casePy (String.mk [Char.ofNat 0x1e96])) ==
        upper_casePy (String.mk [Char.ofNat 0x1e96])) = false) := by
  decide

/-- C4 (amended): the normalizers are idempotent on every string of
ASCII characters; CPython's one-to-many full case mappings outside
ASCII break idempotence in general. -/
theorem claim_C4_normalizer_idempotent_ascii :
    ∀ s : String, (∀ c ∈ s.data, c.toNat < 128) →
      snake_casePy (snake_casePy s) = snake_casePy s ∧
        upper_casePy (upper_casePy s) = upper_casePy s := by
  intro s h
  rw [snake_casePy_ascii h, upper_casePy_ascii h,
    snake_casePy_ascii (snake_case_data_ascii h),
    upper_casePy_ascii (upper_case_data_ascii h)]
  exact ⟨snake_case_idem s, upper_case_idem s⟩

theorem claim_C4_normalizer_idempotent_ascii_witness :
    snake_casePy (snake_casePy "Hello__World!!") = snake_casePy "Hello__World!!" ∧
      upper_casePy (upper_casePy "Hello__World!!") = upper_casePy "Hello__World!!" :=
  claim_C4_normalizer_idempotent_ascii "Hello__World!!" (by decide)

/-- C5 counterexample: lower-casing upper_case of µ (U+00B5) yields
μ (U+03BC), while snake_case of µ is µ itself: the two normalizer
outputs do not differ only in letter case. -/
theorem claim_C5_case_relation_cex :
    upper_casePy (String.mk [Char.ofNat 0xb5]) = String.mk [Char.ofNat 0x39c] ∧
    pyLower (upper_casePy (String.mk [Char.ofNat 0xb5])) =
      String.mk [Char.ofNat 0x3bc] ∧
    snake_casePy (String.mk [Char.ofNat 0xb5]) = String.mk [Char.ofNat 0xb5] ∧
    ((pyLower (upper_casePy (String.mk [Char.ofNat 0xb5])) ==
        snake_casePy (String.mk [Char.ofNat 0xb5])) = false) := by
  decide

/-- C5 (amended): restricted to strings of ASCII characters the two
normalizers differ only in letter case: lower-casing `upper_casePy s`
yields `snake_casePy s` and upper-casing `snake_casePy s` yields
`upper_casePy s`. -/
theorem claim_C5_case_relation_ascii :
    ∀ s : String, (∀ c ∈ s.data, c.toNat < 128) →
      pyLower (upper_casePy s) = snake_casePy s ∧
        pyUpper (snake_casePy s) = upper_casePy s := by
  intro s h
  rw [upper_casePy_ascii h, snake_casePy_ascii h]
  constructor
  · rw [pyLower_ascii (upper_case_data_ascii h)]
    exact lowerStr_upper_case s
  · rw [pyUpper_ascii (snake_case_data_ascii h)]
    exact upperStr_snake_case s

theorem claim_C5_case_relation_ascii_witness :
    pyLower (upper_casePy "Hello__World!!") = snake_casePy "Hello__World!!" ∧
      pyUpper (snake_casePy "Hello__World!!") = upper_casePy "Hello__World!!" :=
  claim_C5_case_relation_ascii "Hello__World!!" (by decide)

/-- C6 counterexample: saving the key ẖ (U+1E96) persists "H" followed
by combining macron below (U+0331), which is not in upper-cased
normalized form: the normalizer maps the persisted key to "H". -/
theorem claim_C6_save_uppercases_key_cex :
    EnvVarRec.savePy (⟨String.mk [Char.ofNat 0x1e96], ()⟩ : EnvVarRec Unit) =
      some ⟨String.mk [Char.ofNat 0x48, Char.ofNat 0x331], ()⟩ ∧
    upper_casePy (String.mk [Char.ofNat 0x48, Char.ofNat 0x331]) =
      String.mk [Char.ofNat 0x48] ∧
    ((upper_casePy (String.mk [Char.ofNat 0x48, Char.ofNat 0x331]) ==
        String.mk [Char.ofNat 0x48, Char.ofNat 0x331]) = false) := by
  decide

/-- C6 (amended): every successful save persists exactly the
upper-cased normalized key — the persisted key equals `upper_casePy`
of the key set on the instance, and saving key "db_host" persists key
"DB_HOST"; the persisted key is itself a fixed point of the
normalizer for keys of ASCII characters (CPython's one-to-many case
mappings break the fixed-point invariant for non-ASCII keys). -/
theorem claim_C6_save_uppercases_key_amended :
    (∀ (V : Type) (r r2 : EnvVarRec V), r.savePy = some r2 →
        r2.key = upper_casePy r.key) ∧
    (∀ (V : Type) (r r2 : EnvVarRec V), (∀ c ∈ r.key.data, c.toNat < 128) →
        r.savePy = some r2 → r2.key = upper_casePy r2.key) ∧
    EnvVarRec.savePy (⟨"db_host", ()⟩ : EnvVarRec Unit) = some ⟨"DB_HOST", ()⟩ := by
  refine ⟨?_, ?_, by decide⟩
  · intro V r r2 h
    have h2 : (if upper_casePy r.key = "" then (none : Option (EnvVarRec V))
        else some ⟨upper_casePy r.key, r.value⟩) = some r2 := h
    by_cases hk : upper_casePy r.key = ""
    · rw [if_pos hk] at h2
      exact absurd h2 (by simp)
    · rw [if_neg hk] at h2
      have h3 := Option.some.inj h2
      subst h3
      rfl
  · intro V r r2 hk h
    have h2 : (if upper_casePy r.key = "" then (none : Option (EnvVarRec V))
        else some ⟨upper_casePy r.key, r.value⟩) = some r2 := h
    by_cases hke : upper_casePy r.key = ""
    · rw [if_pos hke] at h2
      exact absurd h2 (by simp)
    · rw [if_neg hke] at h2
      have h3 := Option.some.inj h2
      subst h3
      show upper_casePy r.key = upper_casePy (upper_casePy r.key)
      rw [upper_casePy_ascii hk]
      rw [upper_casePy_ascii (upper_case_data_ascii hk)]
      exact (upper_case_idem r.key).symm

theorem claim_C6_save_uppercases_key_amended_witness :
    ("DB_HOST" : String) = upper_casePy "db_host" ∧
      ("DB_HOST" : String) = upper_casePy "DB_HOST" :=
  ⟨claim_C6_save_uppercases_key_amended.1 Unit ⟨"db_host", ()⟩ ⟨"DB_HOST", ()⟩
      (by decide),
   claim_C6_save_uppercases_key_amended.2.1 Unit ⟨"db_host", ()⟩ ⟨"DB_HOST", ()⟩
      (by decide) (by decide)⟩
